import Mathlib

/-!
Verification of the `fsmentry` code generator (crate `fsmentry-core`,
`src/core/src/lib.rs`) against its natural-language specification.

The development shallowly embeds the relevant Rust code:

* identifiers, payload types and doc strings are `String`s
  (`syn::Type` is opaque to the generator and emitted verbatim);
* the DSL statement list consumed by `FSMGenerator::try_from_dsl`
  (`Stmt::Node` / `Stmt::Edges`, arrows `->`, `-->`, `-"doc"->`);
* `std::collections::HashMap` is modelled as an association list whose
  list order stands for the map's (unspecified) iteration order: two
  lists that are permutations of one another represent the same map;
* `heck`'s `to_snake_case` / `to_upper_camel_case` are reimplemented
  for ASCII identifiers (the only identifiers the claims involve);
* fallible Rust code returns `Except String`.

The newer classifier in `src/core/src/graph.rs` (`Graph::nodes`, `Kind`)
is embedded separately in namespace `GraphRs`.
-/

namespace Fsmentry

/-! ## ASCII case conversion (model of `heck` on ASCII identifiers) -/

def isUpperA (c : Char) : Bool := 'A' ≤ c && c ≤ 'Z'
def isLowerA (c : Char) : Bool := 'a' ≤ c && c ≤ 'z'
def isDigitA (c : Char) : Bool := '0' ≤ c && c ≤ '9'
def isAlnumA (c : Char) : Bool := isUpperA c || isLowerA c || isDigitA c

def toLowerA (c : Char) : Char :=
  if isUpperA c then Char.ofNat (c.toNat + 32) else c

def toUpperA (c : Char) : Char :=
  if isLowerA c then Char.ofNat (c.toNat - 32) else c

/-- Split an identifier into words, at non-alphanumeric characters, at a
lower-to-upper boundary, and before the last upper-case letter of an
upper-case run that is followed by lower case (`heck`'s word boundaries).
The accumulator `cur` holds the current word reversed. -/
def splitWordsAux : List Char → List Char → List (List Char)
  | [], cur => if cur.isEmpty then [] else [cur.reverse]
  | c :: rest, cur =>
    if !isAlnumA c then
      if cur.isEmpty then splitWordsAux rest []
      else cur.reverse :: splitWordsAux rest []
    else if isUpperA c then
      match cur with
      | p :: _ =>
        if isLowerA p || isDigitA p then cur.reverse :: splitWordsAux rest [c]
        else splitWordsAux rest (c :: cur)
      | [] => splitWordsAux rest [c]
    else
      match cur with
      | p :: q :: more =>
        if isLowerA c && isUpperA p && isUpperA q then
          (q :: more).reverse :: splitWordsAux rest [c, p]
        else splitWordsAux rest (c :: cur)
      | _ => splitWordsAux rest (c :: cur)

def splitWords (s : String) : List (List Char) := splitWordsAux s.toList []

/-- Model of `heck::ToSnakeCase` on ASCII identifiers: lower-case every
word and join the words with underscores. -/
def snakeCase (s : String) : String :=
  String.intercalate "_" ((splitWords s).map fun w => String.mk (w.map toLowerA))

/-- Model of `heck::ToUpperCamelCase` on ASCII identifiers: capitalize the
first letter of every word, lower-case the rest, and concatenate. -/
def upperCamelCase (s : String) : String :=
  String.join ((splitWords s).map fun w =>
    match w with
    | [] => ""
    | c :: rest => String.mk (toUpperA c :: rest.map toLowerA))

/-! ## Data model of `FSMGenerator` (src/core/src/lib.rs) -/

/-- Model of `syn::Visibility`: `pub`, `pub(...)` restrictions, or inherited
(private) visibility. -/
inductive Visibility
  | pub
  | restricted (path : String)
  | inherited
  deriving DecidableEq, Repr

/-- Model of `NodeData`: optional payload type (emitted verbatim) and doc strings. -/
structure NodeData where
  ty : Option String
  docs : List String
  deriving DecidableEq, Repr

/-- Model of `FSMGenerator`: attributes, visibility, machine name, and the node and
edge maps.  The Rust fields `nodes`/`edges` are `HashMap`s; here they are
association lists whose order stands for the map's iteration order. -/
structure FSMGenerator where
  attributes : List String
  vis : Visibility
  ident : String
  nodes : List (String × NodeData)
  edges : List ((String × String) × List String)
  deriving DecidableEq, Repr

/-- Association-list key membership (model of `HashMap::contains_key`). -/
def containsKey {α β : Type} [DecidableEq α] (l : List (α × β)) (k : α) : Bool :=
  l.any fun p => p.1 = k

/-- Association-list lookup (model of `HashMap` indexing / `get`). -/
def assocLookup {α β : Type} [DecidableEq α] (l : List (α × β)) (k : α) : Option β :=
  (l.find? fun p => p.1 = k).map Prod.snd

/-! ## The DSL statement list consumed by `try_from_dsl`

The core's `dsl` module types are embedded structurally, following how
`try_from_dsl` destructures them: a node statement carries docs, an
identifier and an optional payload type; an edges statement carries docs
and a chain `from (arrow to)+`; an arrow is `->` (short), `-->` (long) or
`-"doc"->` (documented). -/

inductive Edge
  | short
  | long
  | documented (doc : String)
  deriving DecidableEq, Repr

inductive Stmt
  | node (attrs : List String) (ident : String) (ty : Option String)
  | edges (attrs : List String) (src : String) (edge : Edge) (dst : String)
      (rest : List (Edge × String))
  deriving DecidableEq, Repr

def Stmt.isNode : Stmt → Bool
  | .node .. => true
  | .edges .. => false

/-- The parsed DSL (`dsl::Dsl`): outer attributes, visibility, machine
name, and the statement list. -/
structure Dsl where
  attrs : List String
  vis : Visibility
  name : String
  stmts : List Stmt
  deriving DecidableEq, Repr

/-! ## `FSMGenerator::try_from_dsl` -/

/-- Insert a node declaration (`nodes.entry(..)`): `Occupied` is a
"duplicate node definition" error, `Vacant` inserts. -/
def processNode (nodes : List (String × NodeData)) (attrs : List String)
    (id : String) (ty : Option String) :
    Except String (List (String × NodeData)) :=
  if containsKey nodes id then .error "duplicate node definition"
  else .ok (nodes ++ [(id, ⟨ty, attrs⟩)])

/-- Model of `nodes.entry(ident).or_insert(..)` in the chain walk:
every identifier referenced in a chain gets an implicit node. -/
def orInsertNode (nodes : List (String × NodeData)) (id : String) :
    List (String × NodeData) :=
  if containsKey nodes id then nodes else nodes ++ [(id, ⟨none, []⟩)]

/-- Docs attached to one edge: the statement's docs, then — for a
documented arrow — a blank-line separator (when the docs are non-empty)
followed by the arrow's doc string. -/
def edgeDocs (attrs : List String) : Edge → List String
  | .documented doc => attrs ++ (if attrs.isEmpty then [] else [""]) ++ [doc]
  | _ => attrs

/-- Insert one directed edge keyed by `(src, dst)`: `Occupied` is a
"duplicate edge definition" error, `Vacant` inserts. -/
def insertEdge (edges : List ((String × String) × List String))
    (attrs : List String) (k : String × String) (e : Edge) :
    Except String (List ((String × String) × List String)) :=
  if containsKey edges k then .error "duplicate edge definition"
  else .ok (edges ++ [(k, edgeDocs attrs e)])

/-- Walk a chain `src (arrow dst)+`, inserting each consecutive pair and
advancing `src := dst` (the `for (edge, to) in ...` loop). -/
def processChain (attrs : List String) :
    String → List (Edge × String) → List ((String × String) × List String) →
    Except String (List ((String × String) × List String))
  | _, [], edges => .ok edges
  | src, (e, dst) :: rest, edges =>
    match insertEdge edges attrs (src, dst) e with
    | .error msg => .error msg
    | .ok edges => processChain attrs dst rest edges

/-- Process one statement against the accumulated node and edge maps. -/
def processStmt (acc : List (String × NodeData) × List ((String × String) × List String)) :
    Stmt →
    Except String (List (String × NodeData) × List ((String × String) × List String))
  | .node attrs id ty =>
    match processNode acc.1 attrs id ty with
    | .error msg => .error msg
    | .ok nodes => .ok (nodes, acc.2)
  | .edges attrs src e dst rest =>
    let nodes := (src :: dst :: rest.map Prod.snd).foldl orInsertNode acc.1
    match processChain attrs src ((e, dst) :: rest) acc.2 with
    | .error msg => .error msg
    | .ok edges => .ok (nodes, edges)

/-- Statements sorted so node statements come before edges statements
(`stmts.sort_unstable_by` with a comparator that only distinguishes the
two statement kinds; a stable partition is one of its admissible results,
and the relative order inside each kind does not affect the success value
or the error message). -/
def sortStmts (stmts : List Stmt) : List Stmt :=
  stmts.filter Stmt.isNode ++ stmts.filter fun s => !s.isNode

/-- The `for stmt in stmts` loop: thread the node and edge maps through
the statements, stopping at the first error. -/
def processStmts :
    List Stmt → List (String × NodeData) × List ((String × String) × List String) →
    Except String (List (String × NodeData) × List ((String × String) × List String))
  | [], acc => .ok acc
  | s :: rest, acc =>
    match processStmt acc s with
    | .error msg => .error msg
    | .ok acc => processStmts rest acc

/-- Model of `FSMGenerator::try_from_dsl`: sort node statements first, fold every
statement into the node and edge maps, and build the generator.  Note:
the function performs no empty-edge-set validation. -/
def try_from_dsl (d : Dsl) : Except String FSMGenerator :=
  match processStmts (sortStmts d.stmts) ([], []) with
  | .error msg => .error msg
  | .ok (nodes, edges) => .ok ⟨d.attrs, d.vis, d.name, nodes, edges⟩

/-! ## `FSMGenerator::codegen` -/

/-- Payload type of a node, as `codegen` reads it (`self.nodes[id].ty`;
the node is always present for builder outputs, a missing node yields
`none` instead of the Rust panic). -/
def nodeTy (g : FSMGenerator) (id : String) : Option String :=
  match assocLookup g.nodes id with
  | some d => d.ty
  | none => none

/-- Model of `FSMGenerator::outgoing`: destinations (with edge docs) of the edges
leaving `src`, in edge-map iteration order.  The Rust function returns
`None` for an empty list; callers match on emptiness here. -/
def outgoingList (g : FSMGenerator) (src : String) : List (String × List String) :=
  g.edges.filterMap fun p => if p.1.1 = src then some (p.1.2, p.2) else none

/-- Model of `FSMGenerator::incoming`: sources of the edges entering `dst`. -/
def incomingList (g : FSMGenerator) (dst : String) : List String :=
  g.edges.filterMap fun p => if p.1.2 = dst then some p.1.1 else none

/-- One generated transition method on a connector type: its name, its
`next` parameter type (the destination's payload, if any), its return
type (the source's previous payload, if any), the state-enum variant it
installs into the container, and whether that variant wraps the `next`
parameter. -/
structure Method where
  name : String
  param : Option String
  ret : Option String
  installs : String
  installsPayload : Bool
  deriving DecidableEq, Repr

/-- The four-way `match (node_data_ty, &self.nodes[outgoing].ty)` in
`codegen`, one `parse_quote!` arm per (source payload?, destination
payload?) case.  Every arm replaces the container's value with the
destination's variant. -/
def transitionMethod (aty bty : Option String) (dst : String) : Method :=
  match aty, bty with
  | none, none => ⟨snakeCase dst, none, none, upperCamelCase dst, false⟩
  | none, some out => ⟨snakeCase dst, some out, none, upperCamelCase dst, true⟩
  | some input, none => ⟨snakeCase dst, none, some input, upperCamelCase dst, false⟩
  | some input, some out => ⟨snakeCase dst, some out, some input, upperCamelCase dst, true⟩

/-- All transition methods generated on the connector type of `src`, one
per outgoing edge, in edge-map iteration order. -/
def transitionMethods (g : FSMGenerator) (src : String) : List Method :=
  (outgoingList g src).map fun p => transitionMethod (nodeTy g src) (nodeTy g p.1) p.1

/-- The `i`-th candidate accessor-name pair produced by
`itertools::interleave(names("get"), names("get_data"))`: candidate `2n`
is `(get…, get_mut…)` and candidate `2n+1` is `(get_data…, get_data_mut…)`,
each with `n` trailing underscores. -/
def getterCandidate (i : Nat) : String × String :=
  let u := String.mk (List.replicate (i / 2) '_')
  if i % 2 = 0 then ("get" ++ u, "get_mut" ++ u)
  else ("get_data" ++ u, "get_data_mut" ++ u)

/-- The search loop of `FSMGenerator::getter_names`: skip candidate pairs
either of whose names is an existing *node name*, return the first free
pair.  Fuelled; `none` models the unreachable fuel-exhaustion branch. -/
def getterNamesAux (g : FSMGenerator) : Nat → Nat → Option (String × String)
  | 0, _ => none
  | fuel + 1, i =>
    let c := getterCandidate i
    if containsKey g.nodes c.1 || containsKey g.nodes c.2 then
      getterNamesAux g fuel (i + 1)
    else some c

/-- Model of `FSMGenerator::getter_names`.  A node name blocks at most one
candidate pair, so `nodes.length + 1` candidates always suffice. -/
def getter_names (g : FSMGenerator) : Option (String × String) :=
  getterNamesAux g (g.nodes.length + 1) 0

/-- A variant of the generated `State` enum: name and optional payload. -/
structure StateVariant where
  name : String
  ty : Option String
  deriving DecidableEq, Repr

/-- Shape of a generated `Entry` enum variant: bare, an exclusive
reference to the payload, or a connector handle (a generated struct
holding `inner: &'a mut State`, an exclusive reference to the whole state
container). -/
inductive EntryShape
  | bare
  | refMut (ty : String)
  | connector (tyName : String)
  deriving DecidableEq, Repr

structure EntryVariant where
  name : String
  shape : EntryShape
  deriving DecidableEq, Repr

/-- The `Entry` variant `codegen` emits for one node, per the
`match (node_ty, self.outgoing(node))` in the per-node loop. -/
def entryVariantFor (g : FSMGenerator) (id : String) (d : NodeData) : EntryVariant :=
  match d.ty, outgoingList g id with
  | none, [] => ⟨upperCamelCase id, .bare⟩
  | some ty, [] => ⟨upperCamelCase id, .refMut ty⟩
  | _, _ :: _ => ⟨upperCamelCase id, .connector (upperCamelCase id)⟩

/-- The `State` variant `codegen` emits for one node. -/
def stateVariantFor (id : String) (d : NodeData) : StateVariant :=
  ⟨upperCamelCase id, d.ty⟩

/-- One generated `impl` block on a connector type: the payload accessor
pair, a transition method, or the trailing `Debug` impl. -/
inductive ImplBlock
  | getters (tyName get getMut ty : String)
  | transition (tyName : String) (docs : List String) (m : Method)
  | debugImpl (tyName : String)
  deriving DecidableEq, Repr

/-- The `impl` blocks `codegen` pushes while visiting one node: the
accessor pair (when the node has a payload and a connector), then one
block per outgoing edge. -/
def implsFor (g : FSMGenerator) (id : String) (d : NodeData) : List ImplBlock :=
  match outgoingList g id with
  | [] => []
  | out =>
    let ttn := upperCamelCase id
    (match d.ty, getter_names g with
     | some ty, some (get, getMut) => [.getters ttn get getMut ty]
     | _, _ => []) ++
    out.map fun p => .transition ttn p.2 (transitionMethod d.ty (nodeTy g p.1) p.1)

/-- The generated connector-struct name for a node
(`FSMGenerator::transition_ty`). -/
def transitionTyFor (g : FSMGenerator) (id : String) (_d : NodeData) : Option String :=
  match outgoingList g id with
  | [] => none
  | _ => some (upperCamelCase id)

/-- Structured output of `codegen`: the ordered `State` and `Entry`
variant lists, the connector structs, the ordered `impl` blocks, and the
emitted module's visibility and name.  The pretty-printed bytes of the
generated file are a function of this structure, in particular of the
order of every list. -/
structure CodegenOut where
  stateVariants : List StateVariant
  entryVariants : List EntryVariant
  entryHasLifetime : Bool
  transitionTys : List String
  transitionImpls : List ImplBlock
  moduleVis : Visibility
  moduleName : String
  deriving DecidableEq, Repr

/-- Model of `FSMGenerator::codegen`, iterating `self.nodes.iter()` in the order
of the `nodes` list (the `HashMap`'s iteration order). -/
def codegen (g : FSMGenerator) : CodegenOut :=
  let tys := g.nodes.filterMap fun p => transitionTyFor g p.1 p.2
  { stateVariants := g.nodes.map fun p => stateVariantFor p.1 p.2
    entryVariants := g.nodes.map fun p => entryVariantFor g p.1 p.2
    entryHasLifetime := g.nodes.any fun p =>
      p.2.ty.isSome || !(outgoingList g p.1).isEmpty
    transitionTys := tys
    transitionImpls :=
      (g.nodes.flatMap fun p => implsFor g p.1 p.2) ++ tys.map .debugImpl
    moduleVis := g.vis
    moduleName := snakeCase g.ident }

/-- Names of all `pub fn`s generated on the connector type of `src`: the
payload accessors (when the node has a payload), then the transition
methods. -/
def connectorMethodNames (g : FSMGenerator) (src : String) : List String :=
  match outgoingList g src with
  | [] => []
  | _ =>
    (match nodeTy g src, getter_names g with
     | some _, some (get, getMut) => [get, getMut]
     | _, _ => []) ++
    (transitionMethods g src).map Method.name

/-- The `Entry` variants of `codegen`, each paired with the node that
produced it (the loop over `self.nodes.iter()`). -/
def entryVariantsByNode (g : FSMGenerator) : List (String × EntryVariant) :=
  g.nodes.map fun p => (p.1, entryVariantFor g p.1 p.2)

/-- Two `FSMGenerator` values that represent the same generator state:
equal scalar fields, and node and edge association lists that are
permutations of one another (the same `HashMap` contents enumerated in
two of the orders the `HashMap` is free to produce). -/
def SameHashMaps (g₁ g₂ : FSMGenerator) : Prop :=
  g₁.attributes = g₂.attributes ∧ g₁.vis = g₂.vis ∧ g₁.ident = g₂.ident ∧
  g₁.nodes.Perm g₂.nodes ∧ g₁.edges.Perm g₂.edges

/-! ## `FSMGenerator::parse_dot` (DOT front end)

The `syn_graphs::dot` AST is embedded structurally: only the parts
`parse_dot` inspects are kept (identifiers vs. other `ID`s, ports,
attrs, directedness, subgraphs). -/

inductive DotID
  | anyIdent (s : String)
  | other
  deriving DecidableEq, Repr

structure DotNodeId where
  id : DotID
  port : Option Unit
  deriving DecidableEq, Repr

inductive DotEdgeTarget
  | nodeId (n : DotNodeId)
  | subgraph
  deriving DecidableEq, Repr

inductive DotDir
  | directed
  | undirected
  deriving DecidableEq, Repr

/-- A DOT statement: node, edge (grammar guarantees at least one arrow,
kept as `first`/`rest`), or one of the unsupported statement kinds.
`attrs` records whether an attribute list is present. -/
inductive DotStmt
  | node (nid : DotNodeId) (attrs : Bool)
  | edge (src : DotEdgeTarget) (first : DotDir × DotEdgeTarget)
      (rest : List (DotDir × DotEdgeTarget)) (attrs : Bool)
  | unsupported
  deriving DecidableEq, Repr

structure DotGraph where
  strict : Bool
  digraph : Bool
  id : Option DotID
  stmts : List DotStmt
  deriving DecidableEq, Repr

/-- Model of `edge_target_to_ident`: only a port-free, bare-identifier node id is
accepted as an edge endpoint. -/
def edgeTargetToIdent : DotEdgeTarget → Except String String
  | .subgraph => .error "subgraphs are not supported"
  | .nodeId ⟨_, some _⟩ => .error "ports are not supported"
  | .nodeId ⟨.anyIdent s, none⟩ => .ok s
  | .nodeId ⟨.other, none⟩ => .error "only idents are allowed here"

/-- Convert one arrow of a DOT edge statement: the arrow must be
directed, the target an identifier; the resulting DSL arrow is always
the short arrow. -/
def dotArrow : DotDir × DotEdgeTarget → Except String (Edge × String)
  | (.undirected, _) => .error "edge must be directed"
  | (.directed, t) =>
    match edgeTargetToIdent t with
    | .error msg => .error msg
    | .ok s => .ok (.short, s)

/-- Transpile one DOT statement to a DSL statement. -/
def dotStmtToDsl : DotStmt → Except String Stmt
  | .node _ true => .error "attrs are not supported"
  | .node ⟨_, some _⟩ false => .error "ports are not supported"
  | .node ⟨.other, none⟩ false => .error "unsupported id"
  | .node ⟨.anyIdent s, none⟩ false => .ok (.node [] s none)
  | .edge _ _ _ true => .error "attrs are not supported"
  | .edge src first rest false =>
    match (first :: rest).mapM dotArrow with
    | .error msg => .error msg
    | .ok [] => .error "unreachable: nonempty by construction"
    | .ok ((e, dst) :: converted) =>
      match edgeTargetToIdent src with
      | .error msg => .error msg
      | .ok s => .ok (.edges [] s e dst converted)
  | .unsupported => .error "unsupported statement"

/-- Model of `FSMGenerator::parse_dot`: require a named `digraph`, transpile each
statement to the DSL, and hand the result — with no attributes and `pub`
visibility — to `try_from_dsl`. -/
def parse_dot (d : DotGraph) : Except String FSMGenerator :=
  if !d.digraph then .error "must be `digraph`"
  else
    match d.id with
    | some (.anyIdent nm) =>
      (match d.stmts.mapM dotStmtToDsl with
       | .error msg => .error msg
       | .ok stmts => try_from_dsl ⟨[], .pub, nm, stmts⟩)
    | _ => .error "graph must be named"

/-- A graph that is valid per the specification's data model (§3): unique
node names, at most one edge per ordered pair, edges only between
existing nodes, a non-empty edge set, and distinct derived method names
among the edges leaving any one node. -/
def SpecValidGraph (g : FSMGenerator) : Prop :=
  (g.nodes.map Prod.fst).Nodup ∧
  (g.edges.map Prod.fst).Nodup ∧
  (∀ e ∈ g.edges, containsKey g.nodes e.1.1 ∧ containsKey g.nodes e.1.2) ∧
  g.edges ≠ [] ∧
  ∀ p ∈ g.nodes, (((outgoingList g p.1).map fun q => snakeCase q.1).Nodup)

instance (g : FSMGenerator) : Decidable (SpecValidGraph g) := by
  unfold SpecValidGraph; infer_instance

end Fsmentry

namespace GraphRs

/-! ## The newer topology classifier (`src/core/src/graph.rs`)

`Graph` keys its `BTreeMap`s by node id; classification only inspects the
edge key set, so the maps are embedded as (sorted) association lists. -/

structure NodeData where
  doc : List String
  ty : Option String
  deriving DecidableEq, Repr

structure EdgeData where
  doc : List String
  methodName : String
  deriving DecidableEq, Repr

structure Graph where
  nodes : List (String × NodeData)
  edges : List ((String × String) × EdgeData)
  deriving DecidableEq, Repr

/-- Model of `Graph::outgoing`: scan the edge map for edges leaving `src`,
pairing each destination with its node data and the edge data. -/
def outgoing (g : Graph) (src : String) :
    List (String × Option NodeData × EdgeData) :=
  g.edges.filterMap fun p =>
    if p.1.1 = src then some (p.1.2, Fsmentry.assocLookup g.nodes p.1.2, p.2)
    else none

/-- Model of `Graph::incoming`: scan the edge map for edges entering `dst`. -/
def incoming (g : Graph) (dst : String) :
    List (String × Option NodeData × EdgeData) :=
  g.edges.filterMap fun p =>
    if p.1.2 = dst then some (p.1.1, Fsmentry.assocLookup g.nodes p.1.2, p.2)
    else none

/-- Model of `graph::Kind`, with the incoming/outgoing scans it carries. -/
inductive Kind
  | isolate
  | source (outgoing : List (String × Option NodeData × EdgeData))
  | sink (incoming : List (String × Option NodeData × EdgeData))
  | nonTerminal (incoming outgoing : List (String × Option NodeData × EdgeData))
  deriving DecidableEq, Repr

/-- The role a `Kind` assigns, without its payload lists. -/
inductive Role
  | isolate
  | source
  | sink
  | nonTerminal
  deriving DecidableEq, Repr

def Kind.role : Kind → Role
  | .isolate => .isolate
  | .source _ => .source
  | .sink _ => .sink
  | .nonTerminal .. => .nonTerminal

/-- The classification performed inside `Graph::nodes`:
`match (incoming.is_empty(), outgoing.is_empty())`. -/
def kind (g : Graph) (n : String) : Kind :=
  match (incoming g n).isEmpty, (outgoing g n).isEmpty with
  | true, true => .isolate
  | true, false => .source (outgoing g n)
  | false, true => .sink (incoming g n)
  | false, false => .nonTerminal (incoming g n) (outgoing g n)

/-- The role assigned to node `n` by the classifier. -/
def role (g : Graph) (n : String) : Role := (kind g n).role

end GraphRs

namespace Fsmentry

/-! ## Theorems -/

/-- Helper: case conversion fixes the concrete identifiers used below. -/
lemma upperCamelCase_Foo : upperCamelCase "Foo" = "Foo" := by decide

lemma upperCamelCase_Bar : upperCamelCase "Bar" = "Bar" := by decide

/-- C2 counterexample: a statement list with a single node statement and
no transition statements is accepted by `try_from_dsl`, which returns a
generator whose edge set is empty — the builder performs no
"must define at least one edge" validation. -/
theorem c2_zero_edges_accepted :
    try_from_dsl ⟨[], .pub, "M", [.node [] "A" none]⟩ =
      .ok ⟨[], .pub, "M", [("A", ⟨none, []⟩)], []⟩ := by
  rfl

/-- C2 (amended): for every DSL input whose statements are all node
statements, the builder either reports a duplicate-node error or
succeeds with an empty edge set; no empty-edge-set rejection exists. -/
theorem c2_no_edge_stmts_builds_empty_edge_set (d : Dsl) (g : FSMGenerator)
    (hall : ∀ s ∈ d.stmts, s.isNode = true)
    (hok : try_from_dsl d = .ok g) :
    g.edges = [] := by
  unfold try_from_dsl at hok
  have hnilAll : ∀ (l : List Stmt), (∀ s ∈ l, s.isNode = true) →
      l.filter (fun s => !s.isNode) = [] := by
    intro l
    induction l with
    | nil => intro _; rfl
    | cons s t ih =>
      intro h
      have hs := h s (List.mem_cons_self _ _)
      simp only [List.filter_cons, hs, Bool.not_true, Bool.false_eq_true,
        if_false]
      exact ih fun u hu => h u (List.mem_cons_of_mem _ hu)
  have hnil := hnilAll d.stmts hall
  have hsort : sortStmts d.stmts = d.stmts.filter Stmt.isNode := by
    unfold sortStmts
    rw [hnil, List.append_nil]
  rw [hsort] at hok
  -- node statements never touch the edge accumulator
  have key : ∀ (l : List Stmt)
      (acc : List (String × NodeData) × List ((String × String) × List String)),
      (∀ s ∈ l, s.isNode = true) →
      ∀ r, processStmts l acc = .ok r → r.2 = acc.2 := by
    intro l
    induction l with
    | nil => intro acc _ r h; cases h; rfl
    | cons s l ih =>
      intro acc hl r h
      cases s with
      | node attrs id ty =>
        simp only [processStmts, processStmt] at h
        cases hpn : processNode acc.1 attrs id ty with
        | error msg => rw [hpn] at h; cases h
        | ok nodes =>
          rw [hpn] at h
          exact ih (nodes, acc.2) (fun t ht => hl t (List.mem_cons_of_mem _ ht)) r h
      | edges attrs src e dst rest =>
        have := hl _ (List.mem_cons_self _ _)
        simp [Stmt.isNode] at this
  cases hfold : processStmts (d.stmts.filter Stmt.isNode) ([], []) with
  | error msg => rw [hfold] at hok; cases hok
  | ok r =>
    rw [hfold] at hok
    have h2 : r.2 = [] :=
      key _ ([], []) (fun s hs => List.of_mem_filter hs) r hfold
    cases r with
    | mk rn re =>
      simp only at hok
      cases hok
      exact h2

/-- C2 witness for the amended theorem at a concrete input. -/
theorem c2_no_edge_stmts_witness :
    (∀ s ∈ [Stmt.node [] "A" none], s.isNode = true) ∧
      (FSMGenerator.mk [] .pub "M" [("A", ⟨none, []⟩)] []).edges = [] :=
  ⟨by decide,
   c2_no_edge_stmts_builds_empty_edge_set ⟨[], .pub, "M", [.node [] "A" none]⟩
     ⟨[], .pub, "M", [("A", ⟨none, []⟩)], []⟩ (by decide) (by rfl)⟩

/-- C3 counterexample: declaring the same node twice with *textually
identical* payload types still fails, and with the error
"duplicate node definition", not an incompatible-redefinition error —
the builder never merges repeated explicit declarations. -/
theorem c3_agreeing_redeclaration_rejected :
    try_from_dsl ⟨[], .pub, "M",
        [.node ["doc one"] "Foo" (some "String"),
         .node ["doc two"] "Foo" (some "String")]⟩ =
      .error "duplicate node definition" := by
  rfl

/-- C3 (amended): every repeated explicit declaration of a node fails
with a "duplicate node definition" error, regardless of whether the
payload types agree, disagree, or are omitted; documentation fragments
are never concatenated across declarations. -/
theorem c3_duplicate_declaration_always_fails (a : List String)
    (v : Visibility) (nm : String) (d₁ d₂ : List String) (id : String)
    (ty₁ ty₂ : Option String) :
    try_from_dsl ⟨a, v, nm, [.node d₁ id ty₁, .node d₂ id ty₂]⟩ =
      .error "duplicate node definition" := by
  simp [try_from_dsl, sortStmts, Stmt.isNode, processStmts, processStmt,
    processNode, containsKey]

/-- C7: an explicit declaration `Foo: String;` (with any docs) together
with a later chain `Foo -> Bar;` (any arrow, appearing *before* the
declaration in source order) builds successfully: statements are sorted
nodes-first, `Foo` keeps its declared payload type and docs, the chain
reference `Bar` becomes an implicit node with no payload type and no
docs, and the generated `State` variant for `Foo` carries the declared
payload type. -/
theorem c7_interleaved_declaration_merges (av : List String)
    (v : Visibility) (nm : String) (edocs ndocs : List String) (e : Edge)
    (ty : String) :
    try_from_dsl ⟨av, v, nm,
        [.edges edocs "Foo" e "Bar" [], .node ndocs "Foo" (some ty)]⟩ =
      .ok ⟨av, v, nm, [("Foo", ⟨some ty, ndocs⟩), ("Bar", ⟨none, []⟩)],
        [(("Foo", "Bar"), edgeDocs edocs e)]⟩ ∧
    (codegen ⟨av, v, nm, [("Foo", ⟨some ty, ndocs⟩), ("Bar", ⟨none, []⟩)],
        [(("Foo", "Bar"), edgeDocs edocs e)]⟩).stateVariants =
      [⟨"Foo", some ty⟩, ⟨"Bar", none⟩] := by
  constructor
  · simp [try_from_dsl, sortStmts, Stmt.isNode, processStmts, processStmt,
      processNode, orInsertNode, processChain, insertEdge, containsKey]
  · simp [codegen, stateVariantFor, upperCamelCase_Foo, upperCamelCase_Bar]

/-- C8: two transition statements declaring the same ordered `(src, dst)`
pair fail with a "duplicate edge definition" error, whatever arrow
spelling (plain, long, or documented) either declaration uses. -/
theorem c8_duplicate_edge_any_arrow (a₁ a₂ : List String)
    (v : Visibility) (nm : String) (src dst : String) (e₁ e₂ : Edge) :
    try_from_dsl ⟨[], v, nm,
        [.edges a₁ src e₁ dst [], .edges a₂ src e₂ dst []]⟩ =
      .error "duplicate edge definition" := by
  simp [try_from_dsl, sortStmts, Stmt.isNode, processStmts, processStmt,
    processNode, orInsertNode, processChain, insertEdge, containsKey]

end Fsmentry

namespace GraphRs

/-- Helper: the outgoing scan is empty exactly when the node never
occurs as an edge origin. -/
lemma outgoing_eq_nil (g : Graph) (n : String) :
    outgoing g n = [] ↔ ∀ e ∈ g.edges, e.1.1 ≠ n := by
  unfold outgoing
  rw [List.filterMap_eq_nil_iff]
  constructor
  · intro h e he
    have := h e he
    by_contra hc
    simp [hc] at this
  · intro h e he
    simp [h e he]

/-- Helper: the incoming scan is empty exactly when the node never
occurs as an edge destination. -/
lemma incoming_eq_nil (g : Graph) (n : String) :
    incoming g n = [] ↔ ∀ e ∈ g.edges, e.1.2 ≠ n := by
  unfold incoming
  rw [List.filterMap_eq_nil_iff]
  constructor
  · intro h e he
    have := h e he
    by_contra hc
    simp [hc] at this
  · intro h e he
    simp [h e he]

/-- C6: for every graph and node, the classifier in `Graph::nodes`
assigns exactly one of the four roles, characterized purely by the
node's occurrences in the edge set — Isolate iff it occurs in no edge,
Source iff only as an origin, Sink iff only as a destination,
NonTerminal iff as both — and the assigned role is a pure function of
the edge set (two graphs with equal edge maps classify every node
identically). -/
theorem c6_topology_classification (g : Graph) (n : String) :
    (role g n = .isolate ↔ ∀ e ∈ g.edges, e.1.1 ≠ n ∧ e.1.2 ≠ n) ∧
    (role g n = .source ↔
      ((∃ e ∈ g.edges, e.1.1 = n) ∧ ∀ e ∈ g.edges, e.1.2 ≠ n)) ∧
    (role g n = .sink ↔
      ((∀ e ∈ g.edges, e.1.1 ≠ n) ∧ ∃ e ∈ g.edges, e.1.2 = n)) ∧
    (role g n = .nonTerminal ↔
      ((∃ e ∈ g.edges, e.1.1 = n) ∧ ∃ e ∈ g.edges, e.1.2 = n)) ∧
    (∀ g' : Graph, g'.edges = g.edges → role g' n = role g n) := by
  have reduce : ∀ (h : Graph), role h n =
      (if incoming h n = [] then
        (if outgoing h n = [] then Role.isolate else Role.source)
      else (if outgoing h n = [] then Role.sink else Role.nonTerminal)) := by
    intro h
    unfold role kind
    cases hin : incoming h n with
    | nil =>
      cases hout : outgoing h n with
      | nil => simp [Kind.role]
      | cons b u => simp [Kind.role]
    | cons a t =>
      cases hout : outgoing h n with
      | nil => simp [Kind.role]
      | cons b u => simp [Kind.role]
  have purity : ∀ g' : Graph, g'.edges = g.edges → role g' n = role g n := by
    intro g' he
    have i_iff : incoming g' n = [] ↔ incoming g n = [] := by
      rw [incoming_eq_nil, incoming_eq_nil, he]
    have o_iff : outgoing g' n = [] ↔ outgoing g n = [] := by
      rw [outgoing_eq_nil, outgoing_eq_nil, he]
    rw [reduce g', reduce g]
    by_cases hi : incoming g n = [] <;> by_cases ho : outgoing g n = [] <;>
      simp [i_iff, o_iff, hi, ho]
  have hex_out : ¬(outgoing g n = []) ↔ (∃ e ∈ g.edges, e.1.1 = n) := by
    rw [outgoing_eq_nil]
    push_neg
    rfl
  have hex_in : ¬(incoming g n = []) ↔ (∃ e ∈ g.edges, e.1.2 = n) := by
    rw [incoming_eq_nil]
    push_neg
    rfl
  by_cases hi : incoming g n = [] <;> by_cases ho : outgoing g n = []
  · have hOut0 := (outgoing_eq_nil g n).mp ho
    have hIn0 := (incoming_eq_nil g n).mp hi
    have hrole : role g n = .isolate := by rw [reduce g]; simp [hi, ho]
    refine ⟨?_, ?_, ?_, ?_, purity⟩ <;> rw [hrole]
    · exact iff_of_true rfl fun e he => ⟨hOut0 e he, hIn0 e he⟩
    · exact iff_of_false (by decide) fun hp => hOut0 hp.1.choose hp.1.choose_spec.1
        hp.1.choose_spec.2
    · exact iff_of_false (by decide) fun hp => hIn0 hp.2.choose hp.2.choose_spec.1
        hp.2.choose_spec.2
    · exact iff_of_false (by decide) fun hp => hOut0 hp.1.choose hp.1.choose_spec.1
        hp.1.choose_spec.2
  · have hOutEx := hex_out.mp ho
    have hIn0 := (incoming_eq_nil g n).mp hi
    have hrole : role g n = .source := by rw [reduce g]; simp [hi, ho]
    refine ⟨?_, ?_, ?_, ?_, purity⟩ <;> rw [hrole]
    · exact iff_of_false (by decide) fun hp =>
        (hp hOutEx.choose hOutEx.choose_spec.1).1 hOutEx.choose_spec.2
    · exact iff_of_true rfl ⟨hOutEx, hIn0⟩
    · exact iff_of_false (by decide) fun hp =>
        hp.1 hOutEx.choose hOutEx.choose_spec.1 hOutEx.choose_spec.2
    · exact iff_of_false (by decide) fun hp => hIn0 hp.2.choose hp.2.choose_spec.1
        hp.2.choose_spec.2
  · have hInEx := hex_in.mp hi
    have hOut0 := (outgoing_eq_nil g n).mp ho
    have hrole : role g n = .sink := by rw [reduce g]; simp [hi, ho]
    refine ⟨?_, ?_, ?_, ?_, purity⟩ <;> rw [hrole]
    · exact iff_of_false (by decide) fun hp =>
        (hp hInEx.choose hInEx.choose_spec.1).2 hInEx.choose_spec.2
    · exact iff_of_false (by decide) fun hp =>
        hp.2 hInEx.choose hInEx.choose_spec.1 hInEx.choose_spec.2
    · exact iff_of_true rfl ⟨hOut0, hInEx⟩
    · exact iff_of_false (by decide) fun hp => hOut0 hp.1.choose hp.1.choose_spec.1
        hp.1.choose_spec.2
  · have hInEx := hex_in.mp hi
    have hOutEx := hex_out.mp ho
    have hrole : role g n = .nonTerminal := by rw [reduce g]; simp [hi, ho]
    refine ⟨?_, ?_, ?_, ?_, purity⟩ <;> rw [hrole]
    · exact iff_of_false (by decide) fun hp =>
        (hp hOutEx.choose hOutEx.choose_spec.1).1 hOutEx.choose_spec.2
    · exact iff_of_false (by decide) fun hp =>
        hp.2 hInEx.choose hInEx.choose_spec.1 hInEx.choose_spec.2
    · exact iff_of_false (by decide) fun hp =>
        hp.1 hOutEx.choose hOutEx.choose_spec.1 hOutEx.choose_spec.2
    · exact iff_of_true rfl ⟨hOutEx, hInEx⟩

/-- C6 witness: the classifier applied to a concrete two-node graph. -/
theorem c6_topology_witness :
    role ⟨[("A", ⟨[], none⟩), ("B", ⟨[], none⟩)],
      [(("A", "B"), ⟨[], "b"⟩)]⟩ "A" = Role.source :=
  (c6_topology_classification
      ⟨[("A", ⟨[], none⟩), ("B", ⟨[], none⟩)], [(("A", "B"), ⟨[], "b"⟩)]⟩
      "A").2.1.mpr (by decide)

end GraphRs

namespace Fsmentry

/-- Helper: `try_from_dsl` passes the DSL's attributes, visibility and
name through to the generator unchanged. -/
lemma try_from_dsl_scalar_fields (d : Dsl) (g : FSMGenerator)
    (hok : try_from_dsl d = .ok g) :
    g.attributes = d.attrs ∧ g.vis = d.vis ∧ g.ident = d.name := by
  unfold try_from_dsl at hok
  cases hps : processStmts (sortStmts d.stmts) ([], []) with
  | error msg => rw [hps] at hok; cases hok
  | ok r =>
    rw [hps] at hok
    cases r with
    | mk rn re =>
      simp only at hok
      cases hok
      exact ⟨rfl, rfl, rfl⟩

/-- C10: every DOT input accepted by `parse_dot` yields a generator whose
visibility is `pub` (so `codegen` emits a `pub mod`) and whose machine
name is the digraph's name; the DOT front end offers no visibility
control, whereas `try_from_dsl` always adopts the visibility carried by
the DSL input. -/
theorem c10_parse_dot_pub_and_name (d : DotGraph) (g : FSMGenerator)
    (hok : parse_dot d = .ok g) :
    g.vis = .pub ∧ (codegen g).moduleVis = .pub ∧
    d.id = some (.anyIdent g.ident) ∧
    (∀ (dsl : Dsl) (g' : FSMGenerator), try_from_dsl dsl = .ok g' →
      g'.vis = dsl.vis) := by
  have dslVis : ∀ (dsl : Dsl) (g' : FSMGenerator),
      try_from_dsl dsl = .ok g' → g'.vis = dsl.vis :=
    fun dsl g' h => (try_from_dsl_scalar_fields dsl g' h).2.1
  unfold parse_dot at hok
  cases hdg : d.digraph with
  | false => rw [hdg] at hok; cases hok
  | true =>
    rw [hdg] at hok
    simp only [Bool.not_true, Bool.false_eq_true, if_false] at hok
    cases hid : d.id with
    | none => rw [hid] at hok; cases hok
    | some i =>
      cases i with
      | other => rw [hid] at hok; cases hok
      | anyIdent nm =>
        rw [hid] at hok
        simp only at hok
        cases hmap : d.stmts.mapM dotStmtToDsl with
        | error msg => rw [hmap] at hok; cases hok
        | ok stmts =>
          rw [hmap] at hok
          obtain ⟨-, hvis, hname⟩ :=
            try_from_dsl_scalar_fields ⟨[], .pub, nm, stmts⟩ g hok
          refine ⟨hvis, ?_, ?_, dslVis⟩
          · simp [codegen, hvis]
          · rw [hname]
  
/-- C10 witness: a concrete accepted DOT input. -/
theorem c10_parse_dot_witness :
    parse_dot ⟨false, true, some (.anyIdent "M"),
        [.edge (.nodeId ⟨.anyIdent "A", none⟩)
          (.directed, .nodeId ⟨.anyIdent "B", none⟩) [] false]⟩ =
      .ok ⟨[], .pub, "M", [("A", ⟨none, []⟩), ("B", ⟨none, []⟩)],
        [(("A", "B"), [])]⟩ ∧
    (FSMGenerator.mk [] .pub "M" [("A", ⟨none, []⟩), ("B", ⟨none, []⟩)]
        [(("A", "B"), [])]).vis = .pub ∧
    (some (DotID.anyIdent "M") : Option DotID) =
      some (.anyIdent (FSMGenerator.mk [] .pub "M"
        [("A", ⟨none, []⟩), ("B", ⟨none, []⟩)] [(("A", "B"), [])]).ident) :=
  ⟨by rfl,
   (c10_parse_dot_pub_and_name
      ⟨false, true, some (.anyIdent "M"),
        [.edge (.nodeId ⟨.anyIdent "A", none⟩)
          (.directed, .nodeId ⟨.anyIdent "B", none⟩) [] false]⟩
      ⟨[], .pub, "M", [("A", ⟨none, []⟩), ("B", ⟨none, []⟩)],
        [(("A", "B"), [])]⟩ (by rfl)).1,
   (c10_parse_dot_pub_and_name
      ⟨false, true, some (.anyIdent "M"),
        [.edge (.nodeId ⟨.anyIdent "A", none⟩)
          (.directed, .nodeId ⟨.anyIdent "B", none⟩) [] false]⟩
      ⟨[], .pub, "M", [("A", ⟨none, []⟩), ("B", ⟨none, []⟩)],
        [(("A", "B"), [])]⟩ (by rfl)).2.2.1⟩

end Fsmentry

namespace Fsmentry

/-- Helper: the getter-name search only ever returns a candidate pair
neither of whose names is a node name. -/
lemma getterNamesAux_avoids_nodes (g : FSMGenerator) :
    ∀ (fuel i : Nat) (a b : String),
      getterNamesAux g fuel i = some (a, b) →
      containsKey g.nodes a = false ∧ containsKey g.nodes b = false := by
  intro fuel
  induction fuel with
  | zero => intro i a b h; cases h
  | succ n ih =>
    intro i a b h
    unfold getterNamesAux at h
    by_cases hc : (containsKey g.nodes (getterCandidate i).1 ||
        containsKey g.nodes (getterCandidate i).2) = true
    · rw [if_pos hc] at h
      exact ih (i + 1) a b h
    · rw [if_neg hc] at h
      simp only [Bool.or_eq_true, not_or, Bool.not_eq_true] at hc
      have hpair : getterCandidate i = (a, b) := by
        injection h
      have ha : (getterCandidate i).1 = a := by rw [hpair]
      have hb : (getterCandidate i).2 = b := by rw [hpair]
      exact ⟨ha ▸ hc.1, hb ▸ hc.2⟩

/-- C9 (amended): the accessor-name scan in `getter_names` only
guarantees that the chosen names differ from raw *node names* (a node
literally named `get` is skipped); it does not compare against the
case-converted transition-method names, so collisions in the generated
output remain possible. -/
theorem c9_getter_names_avoid_node_names (g : FSMGenerator)
    (a b : String) (h : getter_names g = some (a, b)) :
    containsKey g.nodes a = false ∧ containsKey g.nodes b = false :=
  getterNamesAux_avoids_nodes g (g.nodes.length + 1) 0 a b h

/-- C9 witness for the amended theorem at a concrete generator. -/
theorem c9_getter_names_witness :
    getter_names ⟨[], .pub, "M", [("A", ⟨some "String", []⟩),
        ("Get", ⟨none, []⟩)], [(("A", "Get"), [])]⟩ =
      some ("get", "get_mut") ∧
    containsKey (FSMGenerator.mk [] .pub "M"
        [("A", ⟨some "String", []⟩), ("Get", ⟨none, []⟩)]
        [(("A", "Get"), [])]).nodes "get" = false ∧
    containsKey (FSMGenerator.mk [] .pub "M"
        [("A", ⟨some "String", []⟩), ("Get", ⟨none, []⟩)]
        [(("A", "Get"), [])]).nodes "get_mut" = false :=
  ⟨by rfl,
   (c9_getter_names_avoid_node_names
      ⟨[], .pub, "M", [("A", ⟨some "String", []⟩), ("Get", ⟨none, []⟩)],
        [(("A", "Get"), [])]⟩ "get" "get_mut" (by rfl)).1,
   (c9_getter_names_avoid_node_names
      ⟨[], .pub, "M", [("A", ⟨some "String", []⟩), ("Get", ⟨none, []⟩)],
        [(("A", "Get"), [])]⟩ "get" "get_mut" (by rfl)).2⟩

/-- C9 counterexample: the DSL input `A: String; A -> Get;` is accepted
by the builder and yields a spec-valid graph, yet the connector type
generated for `A` carries the accessor `get` *and* a transition method
also named `get` (derived from the destination node `Get` by case
conversion) — the emitted method names collide, so the generated output
is not collision-free. -/
theorem c9_accessor_collides_with_transition :
    try_from_dsl ⟨[], .pub, "M",
        [.node [] "A" (some "String"), .edges [] "A" .short "Get" []]⟩ =
      .ok ⟨[], .pub, "M", [("A", ⟨some "String", []⟩), ("Get", ⟨none, []⟩)],
        [(("A", "Get"), [])]⟩ ∧
    SpecValidGraph ⟨[], .pub, "M",
      [("A", ⟨some "String", []⟩), ("Get", ⟨none, []⟩)],
      [(("A", "Get"), [])]⟩ ∧
    connectorMethodNames ⟨[], .pub, "M",
        [("A", ⟨some "String", []⟩), ("Get", ⟨none, []⟩)],
        [(("A", "Get"), [])]⟩ "A" = ["get", "get_mut", "get"] ∧
    ¬ (connectorMethodNames ⟨[], .pub, "M",
        [("A", ⟨some "String", []⟩), ("Get", ⟨none, []⟩)],
        [(("A", "Get"), [])]⟩ "A").Nodup :=
  ⟨by rfl, by decide, by rfl, by decide⟩

/-- C1: the generated output is *not* a function of the graph alone.
The builder accepts `A -> B;`; the two generator values below hold the
same `HashMap` contents (the node lists are permutations of one
another, modelling two iteration orders the unordered `HashMap` may
produce on different runs), yet `codegen` emits the `State`/`Entry`
variants in different orders, so the outputs are not byte-identical.
The node and edge maps are `std::collections::HashMap`s, not sorted
maps, contradicting the claimed canonical sorted iteration order. -/
theorem c1_codegen_depends_on_hashmap_order :
    try_from_dsl ⟨[], .pub, "M", [.edges [] "A" .short "B" []]⟩ =
      .ok ⟨[], .pub, "M", [("A", ⟨none, []⟩), ("B", ⟨none, []⟩)],
        [(("A", "B"), [])]⟩ ∧
    SameHashMaps
      ⟨[], .pub, "M", [("A", ⟨none, []⟩), ("B", ⟨none, []⟩)],
        [(("A", "B"), [])]⟩
      ⟨[], .pub, "M", [("B", ⟨none, []⟩), ("A", ⟨none, []⟩)],
        [(("A", "B"), [])]⟩ ∧
    codegen ⟨[], .pub, "M", [("A", ⟨none, []⟩), ("B", ⟨none, []⟩)],
        [(("A", "B"), [])]⟩ ≠
      codegen ⟨[], .pub, "M", [("B", ⟨none, []⟩), ("A", ⟨none, []⟩)],
        [(("A", "B"), [])]⟩ :=
  ⟨by rfl,
   ⟨rfl, rfl, rfl, List.Perm.swap _ _ _, List.Perm.refl _⟩,
   by decide⟩

end Fsmentry

namespace Fsmentry

/-- Helper: a transition method is always named after its destination's
snake-case form, in all four payload cases. -/
lemma transitionMethod_name (aty bty : Option String) (dst : String) :
    (transitionMethod aty bty dst).name = snakeCase dst := by
  cases aty <;> cases bty <;> rfl

/-- Helper: a transition method's parameter is exactly the destination's
payload, its return exactly the source's payload, it installs the
destination's variant, and it wraps the parameter iff the destination
has a payload. -/
lemma transitionMethod_fields (aty bty : Option String) (dst : String) :
    (transitionMethod aty bty dst).param = bty ∧
    (transitionMethod aty bty dst).ret = aty ∧
    (transitionMethod aty bty dst).installs = upperCamelCase dst ∧
    (transitionMethod aty bty dst).installsPayload = bty.isSome := by
  cases aty <;> cases bty <;> exact ⟨rfl, rfl, rfl, rfl⟩

/-- Helper: an edge of the map appears in the outgoing scan of its
source. -/
lemma mem_outgoingList (g : FSMGenerator) (A B : String) (docs : List String)
    (h : ((A, B), docs) ∈ g.edges) : (B, docs) ∈ outgoingList g A := by
  unfold outgoingList
  exact List.mem_filterMap.mpr ⟨((A, B), docs), h, by simp⟩

/-- Helper: key membership exposes an entry of the association list. -/
lemma containsKey_exists {α β : Type} [DecidableEq α]
    (l : List (α × β)) (k : α) (h : containsKey l k = true) :
    ∃ p ∈ l, p.1 = k := by
  unfold containsKey at h
  obtain ⟨p, hp, hk⟩ := List.any_eq_true.mp h
  exact ⟨p, hp, by simpa using hk⟩

/-- Helper: when the snake-case images of the keys of `l` are distinct
and `B` is a key, filtering the mapped list by the name `snakeCase B`
leaves exactly the entry generated from `B`. -/
lemma filter_snake_singleton (f : String → Method)
    (hf : ∀ d, (f d).name = snakeCase d) :
    ∀ (l : List (String × List String)),
      ((l.map fun p => snakeCase p.1).Nodup) →
      ∀ B, B ∈ l.map Prod.fst →
      ((l.map fun p => f p.1).filter fun m => m.name = snakeCase B) = [f B] := by
  intro l
  induction l with
  | nil => intro _ B hB; cases hB
  | cons p t ih =>
    intro hn B hB
    simp only [List.map_cons, List.nodup_cons] at hn
    obtain ⟨hnotin, hnd⟩ := hn
    simp only [List.map_cons, List.mem_cons] at hB
    simp only [List.map_cons, List.filter_cons]
    by_cases hd : p.1 = B
    · subst hd
      have htail : ((t.map fun q => f q.1).filter
          fun m => m.name = snakeCase p.1) = [] := by
        rw [List.filter_eq_nil_iff]
        intro m hm
        obtain ⟨q, hq, hmq⟩ := List.mem_map.mp hm
        simp only [← hmq, hf q.1, decide_eq_true_eq]
        intro hEq
        exact hnotin (hEq ▸ List.mem_map.mpr ⟨q, hq, rfl⟩)
      simp [hf p.1, htail]
    · have hBt : B ∈ t.map Prod.fst := by
        cases hB with
        | inl hEq => exact absurd hEq.symm hd
        | inr h => exact h
      have hne : ¬((f p.1).name = snakeCase B) := by
        rw [hf p.1]
        intro hEq
        exact hnotin (hEq ▸ List.mem_map.mpr
          (by
            obtain ⟨q, hq, hq1⟩ := List.mem_map.mp hBt
            exact ⟨q, hq, by rw [hq1]⟩))
      have hcond : ¬(decide ((f p.1).name = snakeCase B) = true) := by
        simp [hne]
      rw [if_neg hcond]
      exact ih hnd B hBt

/-- C4: in a spec-valid graph, for every edge `(A, B)` the connector
type generated for `A` has exactly one transition method named
`snake_case(B)`, and its signature follows the payload decision table:
its parameter is exactly `B`'s payload (present iff `B` has one), its
return value is exactly `A`'s previous payload (present iff `A` has
one), and it replaces the container's value with `B`'s variant,
wrapping the new payload iff `B` has one. -/
theorem c4_transition_method_table (g : FSMGenerator)
    (hv : SpecValidGraph g) (A B : String) (docs : List String)
    (hmem : ((A, B), docs) ∈ g.edges) :
    ((transitionMethods g A).filter fun m => m.name = snakeCase B) =
      [transitionMethod (nodeTy g A) (nodeTy g B) B] ∧
    (transitionMethod (nodeTy g A) (nodeTy g B) B).param = nodeTy g B ∧
    (transitionMethod (nodeTy g A) (nodeTy g B) B).ret = nodeTy g A ∧
    (transitionMethod (nodeTy g A) (nodeTy g B) B).installs =
      upperCamelCase B ∧
    (transitionMethod (nodeTy g A) (nodeTy g B) B).installsPayload =
      (nodeTy g B).isSome := by
  obtain ⟨-, -, hends, -, hsnake⟩ := hv
  obtain ⟨pA, hpA, hpA1⟩ :=
    containsKey_exists g.nodes A (hends _ hmem).1
  have hnd : ((outgoingList g A).map fun q => snakeCase q.1).Nodup := by
    have := hsnake pA hpA
    rw [hpA1] at this
    exact this
  have hB : B ∈ (outgoingList g A).map Prod.fst :=
    List.mem_map.mpr ⟨(B, docs), mem_outgoingList g A B docs hmem, rfl⟩
  refine ⟨?_, (transitionMethod_fields _ _ _).1,
    (transitionMethod_fields _ _ _).2.1,
    (transitionMethod_fields _ _ _).2.2.1,
    (transitionMethod_fields _ _ _).2.2.2⟩
  unfold transitionMethods
  exact filter_snake_singleton
    (fun d => transitionMethod (nodeTy g A) (nodeTy g d) d)
    (fun d => transitionMethod_name _ _ d)
    (outgoingList g A) hnd B hB

/-- C4 witness at a concrete spec-valid graph. -/
theorem c4_transition_method_witness :
    SpecValidGraph ⟨[], .pub, "M",
      [("A", ⟨some "String", []⟩), ("B", ⟨none, []⟩)],
      [(("A", "B"), [])]⟩ ∧
    ((("A", "B"), ([] : List String)) ∈
      (FSMGenerator.mk [] .pub "M"
        [("A", ⟨some "String", []⟩), ("B", ⟨none, []⟩)]
        [(("A", "B"), [])]).edges) ∧
    ((transitionMethods ⟨[], .pub, "M",
        [("A", ⟨some "String", []⟩), ("B", ⟨none, []⟩)],
        [(("A", "B"), [])]⟩ "A").filter
      fun m => m.name = snakeCase "B") =
      [transitionMethod (some "String") none "B"] :=
  ⟨by decide, by decide,
   (c4_transition_method_table
      ⟨[], .pub, "M", [("A", ⟨some "String", []⟩), ("B", ⟨none, []⟩)],
        [(("A", "B"), [])]⟩ (by decide) "A" "B" [] (by decide)).1⟩

end Fsmentry

namespace Fsmentry

/-- Helper: with distinct keys, filtering a keyed map of the node list by
one key leaves exactly the entry generated from that node. -/
lemma keyed_map_filter_singleton {β γ : Type} [DecidableEq γ]
    (F : String × β → γ) :
    ∀ (l : List (String × β)),
      ((l.map Prod.fst).Nodup) →
      ∀ (N : String) (d : β), (N, d) ∈ l →
      ((l.map fun p => (p.1, F p)).filter fun q => q.1 = N) = [(N, F (N, d))] := by
  intro l
  induction l with
  | nil => intro _ N d hmem; cases hmem
  | cons p t ih =>
    intro hn N d hmem
    simp only [List.map_cons, List.nodup_cons] at hn
    obtain ⟨hnotin, hnd⟩ := hn
    simp only [List.map_cons, List.filter_cons]
    cases hmem with
    | head =>
      have htail : ((t.map fun p => (p.1, F p)).filter
          fun q => q.1 = N) = [] := by
        rw [List.filter_eq_nil_iff]
        intro q hq
        obtain ⟨r, hr, hrq⟩ := List.mem_map.mp hq
        simp only [← hrq, decide_eq_true_eq]
        intro hEq
        exact hnotin (hEq ▸ List.mem_map.mpr ⟨r, hr, rfl⟩)
      simp [htail]
    | tail _ hmem =>
      have hne : p.1 ≠ N := by
        intro hEq
        exact hnotin (hEq ▸ List.mem_map.mpr ⟨(N, d), hmem, rfl⟩)
      have hcond : ¬(decide (p.1 = N) = true) := by simp [hne]
      rw [if_neg hcond]
      exact ih hnd N d hmem

/-- C5: in a spec-valid graph, the `Entry` enum receives exactly one
variant for each node `N`, and that variant's shape is determined by
`N`'s payload and topology: bare when `N` has no payload and no
outgoing edges; an exclusive reference to the payload when `N` has a
payload but no outgoing edges; and a connector handle — a struct
holding an exclusive reference to the whole state container — whenever
`N` has outgoing edges. -/
theorem c5_entry_variant_shape (g : FSMGenerator)
    (hv : SpecValidGraph g) (N : String) (d : NodeData)
    (hmem : (N, d) ∈ g.nodes) :
    ((entryVariantsByNode g).filter fun q => q.1 = N) =
      [(N, entryVariantFor g N d)] ∧
    (codegen g).entryVariants = (entryVariantsByNode g).map Prod.snd ∧
    (d.ty = none → outgoingList g N = [] →
      entryVariantFor g N d = ⟨upperCamelCase N, .bare⟩) ∧
    (∀ ty, d.ty = some ty → outgoingList g N = [] →
      entryVariantFor g N d = ⟨upperCamelCase N, .refMut ty⟩) ∧
    (outgoingList g N ≠ [] →
      entryVariantFor g N d =
        ⟨upperCamelCase N, .connector (upperCamelCase N)⟩) := by
  refine ⟨?_, ?_, ?_, ?_, ?_⟩
  · exact keyed_map_filter_singleton
      (fun p => entryVariantFor g p.1 p.2) g.nodes hv.1 N d hmem
  · simp [codegen, entryVariantsByNode, List.map_map]
  · intro h1 h2
    simp [entryVariantFor, h1, h2]
  · intro ty h1 h2
    simp [entryVariantFor, h1, h2]
  · intro h
    cases hout : outgoingList g N with
    | nil => exact absurd hout h
    | cons a t =>
      cases hty : d.ty with
      | none => simp [entryVariantFor, hty, hout]
      | some ty => simp [entryVariantFor, hty, hout]

/-- C5 witness at a concrete spec-valid graph. -/
theorem c5_entry_variant_witness :
    SpecValidGraph ⟨[], .pub, "M",
      [("A", ⟨some "String", []⟩), ("B", ⟨none, []⟩)],
      [(("A", "B"), [])]⟩ ∧
    (("B", NodeData.mk none []) ∈
      (FSMGenerator.mk [] .pub "M"
        [("A", ⟨some "String", []⟩), ("B", ⟨none, []⟩)]
        [(("A", "B"), [])]).nodes) ∧
    ((entryVariantsByNode ⟨[], .pub, "M",
        [("A", ⟨some "String", []⟩), ("B", ⟨none, []⟩)],
        [(("A", "B"), [])]⟩).filter fun q => q.1 = "B") =
      [("B", entryVariantFor ⟨[], .pub, "M",
        [("A", ⟨some "String", []⟩), ("B", ⟨none, []⟩)],
        [(("A", "B"), [])]⟩ "B" ⟨none, []⟩)] :=
  ⟨by decide, by decide,
   (c5_entry_variant_shape
      ⟨[], .pub, "M", [("A", ⟨some "String", []⟩), ("B", ⟨none, []⟩)],
        [(("A", "B"), [])]⟩ (by decide) "B" ⟨none, []⟩ (by decide)).1⟩

end Fsmentry
